import Mathlib

/-!
Verification of the EDAversi Reversi engine: board model (`model.cpp`),
evaluation and adaptive-depth alpha-beta search with move ordering and a
node budget (enhanced `ai.cpp`), against its natural-language specification.

The embedding is shallow: each C++ function becomes a Lean function on an
explicit `GameModel` record; the mutable global node counter is threaded as
an explicit `Nat` argument and result; `std::sort` (whose tie behaviour the
C++ standard leaves unspecified) is a parameter `sf` assumed only to return
a permutation of its input.  C++ `int` is modelled as `Int` (no arithmetic
in this program can overflow 32 bits; evaluation values are bounded, see
`evaluate_abs_le`).
-/

namespace EDAversi

/-- Piece: matches the C++ enum { PIECE_EMPTY, PIECE_BLACK, PIECE_WHITE }. -/
inductive Piece where
  | empty
  | black
  | white
deriving DecidableEq, Repr

/-- Player: matches the C++ enum { PLAYER_BLACK, PLAYER_WHITE }. -/
inductive Player where
  | black
  | white
deriving DecidableEq, Repr

/-- The opponent of a player (the `(p == PLAYER_WHITE) ? PLAYER_BLACK : PLAYER_WHITE` idiom). -/
def otherPlayer : Player → Player
  | Player.black => Player.white
  | Player.white => Player.black

/-- The piece colour a player places (`(p == PLAYER_WHITE) ? PIECE_WHITE : PIECE_BLACK`). -/
def pieceOf : Player → Piece
  | Player.black => Piece.black
  | Player.white => Piece.white

/-- The board: fixed 8x8 grid of cells, indexed board y x as in C++ `board[y][x]`. -/
def Board := Fin 8 → Fin 8 → Piece

instance : DecidableEq Board := by
  unfold Board; infer_instance

/-- A coordinate pair, C++ `Square { int x; int y; }`. -/
structure Square where
  x : Int
  y : Int
deriving DecidableEq, Repr

/-- Core game state: `GameModel`'s fields read and written by the search and
move logic (`copyBoard` copies exactly these three fields). -/
structure GameModel where
  board : Board
  currentPlayer : Player
  gameOver : Bool
deriving DecidableEq

/-- C++ `isSquareValid`: both coordinates within [0, 8). -/
def isSquareValid (x y : Int) : Prop :=
  0 ≤ x ∧ x < 8 ∧ 0 ≤ y ∧ y < 8

instance (x y : Int) : Decidable (isSquareValid x y) := by
  unfold isSquareValid; infer_instance

/-- C++ `getBoardPiece` on int coordinates; defined (as the code's usage
guarantees) only for valid squares, `empty` off the board. -/
def getPieceI (b : Board) (x y : Int) : Piece :=
  if h : isSquareValid x y then
    b ⟨y.toNat, by unfold isSquareValid at h; omega⟩ ⟨x.toNat, by unfold isSquareValid at h; omega⟩
  else Piece.empty

/-- C++ `setBoardPiece` on int coordinates (no-op off the board; the code
only writes valid squares). -/
def setPieceI (b : Board) (x y : Int) (p : Piece) : Board :=
  fun fy fx => if ((fx : Int) = x ∧ (fy : Int) = y) then p else b fy fx

/-- Direction table of `getValidMoves` (dx = first component, dy = second). -/
def directionsV : List (Int × Int) :=
  [(-1, -1), (-1, 0), (-1, 1), (0, -1), (0, 1), (1, -1), (1, 0), (1, 1)]

/-- Direction table of `playMove` (same eight directions, the code lists
them in a different order). -/
def directionsP : List (Int × Int) :=
  [(-1, -1), (0, -1), (1, -1), (-1, 0), (1, 0), (-1, 1), (0, 1), (1, 1)]

/-- The inner while-loop of `getValidMoves` for one direction: walk from
(x, y) while on the board; empty cell breaks (no capture), opponent pieces
are recorded in `found` and skipped, own piece succeeds iff an opponent
piece was seen first.  `fuel` bounds the walk; 8 steps always leave the
board, so the bound is never hit from in-board starts. -/
def walkValid (b : Board) (curP oppP : Piece) (dx dy : Int) :
    Int → Int → Bool → Nat → Bool
  | _, _, _, 0 => false
  | x, y, found, fuel + 1 =>
    if isSquareValid x y then
      let pc := getPieceI b x y
      if pc = Piece.empty then false
      else if pc = oppP then walkValid b curP oppP dx dy (x + dx) (y + dy) true fuel
      else found
    else false

/-- The per-cell validity test of `getValidMoves`: the cell is empty and
some direction brackets at least one opponent piece. -/
def squareIsValidMove (b : Board) (curP oppP : Piece) (x y : Int) : Bool :=
  if getPieceI b x y ≠ Piece.empty then false
  else directionsV.any fun d =>
    walkValid b curP oppP d.1 d.2 (x + d.1) (y + d.2) false 8

/-- C++ `getValidMoves` on a board and side to move: scan all 64 cells in
row-major order (y outer, x inner), keeping the valid ones. -/
def getValidMovesBP (b : Board) (pl : Player) : List Square :=
  let curP := pieceOf pl
  let oppP := pieceOf (otherPlayer pl)
  (List.range 8).flatMap fun (y : Nat) =>
    ((List.range 8).filter fun (x : Nat) =>
        squareIsValidMove b curP oppP (x : Int) (y : Int)).map
      fun (x : Nat) => (⟨(x : Int), (y : Int)⟩ : Square)

/-- C++ `getValidMoves(model, validMoves)`. -/
def getValidMoves (m : GameModel) : List Square :=
  getValidMovesBP m.board m.currentPlayer

/-- The inner while-loop of `playMove` for one direction: walk from (x, y)
collecting enemy pieces; an own piece ends the walk returning the collected
run (to be flipped), an empty cell or the board edge ends it flipping
nothing. -/
def collectFlips (b : Board) (mine enemy : Piece) (dx dy : Int) :
    Int → Int → List (Int × Int) → Nat → List (Int × Int)
  | _, _, _, 0 => []
  | x, y, acc, fuel + 1 =>
    if isSquareValid x y then
      let pc := getPieceI b x y
      if pc = Piece.empty then []
      else if pc = enemy then
        collectFlips b mine enemy dx dy (x + dx) (y + dy) (acc ++ [(x, y)]) fuel
      else acc
    else []

/-- Flip every square in the list to the mover's colour. -/
def applyFlips (b : Board) (mine : Piece) (l : List (Int × Int)) : Board :=
  l.foldl (fun b' c => setPieceI b' c.1 c.2 mine) b

/-- The board after `playMove` places the mover's piece and flips all
bracketed runs, direction by direction in the code's order. -/
def boardAfterMove (b : Board) (mine enemy : Piece) (mv : Square) : Board :=
  let b0 := setPieceI b mv.x mv.y mine
  directionsP.foldl
    (fun bAcc d =>
      applyFlips bAcc mine
        (collectFlips bAcc mine enemy d.1 d.2 (mv.x + d.1) (mv.y + d.2) [] 8))
    b0

/-- C++ `playMove`: place and flip, advance `currentPlayer`; if the new
side has no legal move swap back (implicit pass), and if the original mover
also has none set `gameOver`.  Always returns `true` (the `Bool`). -/
def playMove (m : GameModel) (mv : Square) : GameModel × Bool :=
  let mine := pieceOf m.currentPlayer
  let enemy := pieceOf (otherPlayer m.currentPlayer)
  let b1 := boardAfterMove m.board mine enemy mv
  let m1 : GameModel :=
    { board := b1, currentPlayer := otherPlayer m.currentPlayer, gameOver := m.gameOver }
  if getValidMoves m1 = [] then
    let m2 : GameModel := { m1 with currentPlayer := otherPlayer m1.currentPlayer }
    if getValidMoves m2 = [] then ({ m2 with gameOver := true }, true)
    else (m2, true)
  else (m1, true)

/-- All 64 cell coordinates in row-major order (y outer, x inner), as the
C++ double loops visit them. -/
def allCells : List (Nat × Nat) :=
  (List.range 8).flatMap fun y => (List.range 8).map fun x => (y, x)

/-- Board read on the (always in-range) loop indices. -/
def cellAt (b : Board) (c : Nat × Nat) : Piece :=
  getPieceI b (c.2 : Int) (c.1 : Int)

/-- Number of non-empty cells, the `totalPieces` count of the AI code. -/
def totalPieces (b : Board) : Nat :=
  allCells.countP fun c => cellAt b c ≠ Piece.empty

/-- C++ `getScore`: number of the player's pieces on the board. -/
def getScore (b : Board) (pl : Player) : Nat :=
  allCells.countP fun c => cellAt b c = pieceOf pl

/-- The positional weight table `POSITION_WEIGHTS` of the enhanced AI. -/
def POSITION_WEIGHTS (y x : Fin 8) : Int :=
  (([[100, -20,  10,   5,   5,  10, -20, 100],
     [-20, -50,  -2,  -2,  -2,  -2, -50, -20],
     [ 10,  -2,   5,   1,   1,   5,  -2,  10],
     [  5,  -2,   1,   0,   0,   1,  -2,   5],
     [  5,  -2,   1,   0,   0,   1,  -2,   5],
     [ 10,  -2,   5,   1,   1,   5,  -2,  10],
     [-20, -50,  -2,  -2,  -2,  -2, -50, -20],
     [100, -20,  10,   5,   5,  10, -20, 100]] : List (List Int)).getD y.val []).getD x.val 0

/-- Positional term of `evaluate`: weight summed with sign +1 for the
perspective's pieces, -1 for the opponent's. -/
def positionalValue (b : Board) (pl : Player) : Int :=
  let playerPiece := pieceOf pl
  let opponentPiece := pieceOf (otherPlayer pl)
  (allCells.map fun c =>
    if cellAt b c = playerPiece then POSITION_WEIGHTS ⟨c.1 % 8, Nat.mod_lt _ (by omega)⟩ ⟨c.2 % 8, Nat.mod_lt _ (by omega)⟩
    else if cellAt b c = opponentPiece then -POSITION_WEIGHTS ⟨c.1 % 8, Nat.mod_lt _ (by omega)⟩ ⟨c.2 % 8, Nat.mod_lt _ (by omega)⟩
    else 0).sum

/-- Mobility term of `evaluate`: move-count difference times 3 while fewer
than 50 pieces are on the board, +50 when the opponent is stuck, +20 when
the perspective has more than double the opponent's moves. -/
def mobilityValue (b : Board) (pl : Player) (total : Nat) : Int :=
  let playerMoves := getValidMovesBP b pl
  let opponentMoves := getValidMovesBP b (otherPlayer pl)
  if total < 50 then
    ((playerMoves.length : Int) - (opponentMoves.length : Int)) * 3
      + (if opponentMoves.length = 0 ∧ playerMoves.length > 0 then 50 else 0)
      + (if playerMoves.length > opponentMoves.length * 2 then 20 else 0)
  else 0

/-- Edge-stability term of `evaluate`: +-5 per own/opponent piece on any of
the four board edges. -/
def stabilityValue (b : Board) (pl : Player) : Int :=
  let playerPiece := pieceOf pl
  let opponentPiece := pieceOf (otherPlayer pl)
  (allCells.map fun c =>
    if c.2 = 0 ∨ c.2 = 7 ∨ c.1 = 0 ∨ c.1 = 7 then
      if cellAt b c = playerPiece then 5
      else if cellAt b c = opponentPiece then -5
      else 0
    else 0).sum

/-- Parity term of `evaluate`: with at least 50 pieces on the board and an
odd number of empty squares, +10 when it is the perspective's turn, -10
otherwise; 0 in every other case. -/
def parityValue (cur : Player) (pl : Player) (total : Nat) : Int :=
  if 50 ≤ total then
    if (64 - total) % 2 = 1 then (if cur = pl then 10 else -10) else 0
  else 0

/-- Material term of `evaluate`: piece-count difference scaled by game
phase (x5 from 50 pieces, x2 from 40, halved earlier; C++ `/` truncates
toward zero, as does `Int.div`). -/
def pieceValue (b : Board) (pl : Player) (total : Nat) : Int :=
  let scoreDiff : Int := (getScore b pl : Int) - (getScore b (otherPlayer pl) : Int)
  if 50 ≤ total then scoreDiff * 5
  else if 40 ≤ total then scoreDiff * 2
  else scoreDiff.tdiv 2

/-- C++ `evaluate` of the enhanced AI (`part_000`): the sum of the
positional, mobility, stability, parity and material terms. -/
def evaluate (m : GameModel) (pl : Player) : Int :=
  let total := totalPieces m.board
  positionalValue m.board pl + mobilityValue m.board pl total
    + stabilityValue m.board pl + parityValue m.currentPlayer pl total
    + pieceValue m.board pl total

/-- C++ `getSearchDepth`: 7 plies up to 20 pieces, 12 from 45, else 8. -/
def getSearchDepth (m : GameModel) : Nat :=
  let total := totalPieces m.board
  if total ≤ 20 then 7
  else if 45 ≤ total then 12
  else 8

/-- C++ `copyBoard`: copies board, `currentPlayer` and `gameOver` (exactly
the core fields). -/
def copyBoard (m : GameModel) : GameModel :=
  { board := m.board, currentPlayer := m.currentPlayer, gameOver := m.gameOver }

/-- C++ `simulateMove`: play the move on a copy, leaving the input state
untouched. -/
def simulateMove (m : GameModel) (mv : Square) : GameModel :=
  (playMove (copyBoard m) mv).1

/-- C++ `struct ScoredMove` (the comparator sorts by descending score). -/
structure ScoredMove where
  move : Square
  score : Int
deriving DecidableEq, Repr

/-- C++ `orderMoves`, parameterised by the `std::sort` implementation `sf`
(the standard guarantees only a sorted permutation): score each move by
one-ply simulation, negate at minimizing nodes, sort, extract the moves. -/
def orderMoves (sf : List ScoredMove → List ScoredMove)
    (m : GameModel) (moves : List Square) (aiPlayer : Player) (maximizing : Bool) :
    List Square :=
  let scoredMoves := moves.map fun mv =>
    let s := evaluate (simulateMove m mv) aiPlayer
    ({ move := mv, score := if maximizing then s else -s } : ScoredMove)
  (sf scoredMoves).map fun sm => sm.move

/-- C++ `INT_MIN`. -/
def INT_MIN : Int := -2147483648

/-- C++ `INT_MAX`. -/
def INT_MAX : Int := 2147483647

/-- `MAX_NODES` of the basic variant (`ai.cpp`). -/
def MAX_NODES_BASIC : Nat := 100000

/-- `MAX_NODES` of the enhanced variant (`part_000`). -/
def MAX_NODES_ENHANCED : Nat := 500000

/-- Modelled from the spec: the invalid-move sentinel `GAME_INVALID_SQUARE`
returned by `getBestMove` when the side to move has no legal move.  Its
definition lives in a header that is not part of the sources; any
off-board coordinate serves, we use (-1, -1). -/
def GAME_INVALID_SQUARE : Square := ⟨-1, -1⟩

/-- The state with the current player swapped (same board): the
`newModel.currentPlayer = (newModel.currentPlayer == PLAYER_WHITE) ?
PLAYER_BLACK : PLAYER_WHITE` step of the pass logic. -/
def flipTurn (m : GameModel) : GameModel :=
  { m with currentPlayer := otherPlayer m.currentPlayer }

/-- The state marked terminal (`newModel.gameOver = true`). -/
def markOver (m : GameModel) : GameModel :=
  { m with gameOver := true }

/-- The maximizing for-loop of `alphabeta` with the node counter threaded:
evaluate each move (`f mv alpha counter`), track the running maximum, raise
alpha, and break as soon as `beta <= alpha`. -/
def abLoopMaxC (f : Square → Int → Nat → Int × Nat) (β : Int) :
    List Square → Int → Int → Nat → Int × Nat
  | [], _, acc, n => (acc, n)
  | mv :: ms, α, acc, n =>
    let r := f mv α n
    let acc' := max acc r.1
    let α' := max α r.1
    if β ≤ α' then (acc', r.2) else abLoopMaxC f β ms α' acc' r.2

/-- The minimizing for-loop of `alphabeta` with the node counter threaded. -/
def abLoopMinC (f : Square → Int → Nat → Int × Nat) (α : Int) :
    List Square → Int → Int → Nat → Int × Nat
  | [], _, acc, n => (acc, n)
  | mv :: ms, β, acc, n =>
    let r := f mv β n
    let acc' := min acc r.1
    let β' := min β r.1
    if β' ≤ α then (acc', r.2) else abLoopMinC f α ms β' acc' r.2

/-- C++ `alphabeta` of the enhanced AI (`part_000`), with the global
`nodesExplored` counter threaded explicitly (last argument in, second
component out), the node budget `B` (`MAX_NODES`) and the `std::sort`
implementation `sf` as parameters: increment the counter and fail soft to
`evaluate` when the budget is reached; evaluate at depth 0 or terminal
states; pass (flip the side, depth-1) when the mover is stuck, ending the
game when both sides are; otherwise order the moves and run the
alpha-beta loops. -/
def alphabeta (sf : List ScoredMove → List ScoredMove) (B : Nat) (p : Player) :
    Nat → GameModel → Int → Int → Bool → Nat → Int × Nat
  | d, m, α, β, mx, n =>
    let n1 := n + 1
    if B ≤ n1 then (evaluate m p, n1)
    else
      match d with
      | 0 => (evaluate m p, n1)
      | d' + 1 =>
        if m.gameOver then (evaluate m p, n1)
        else
          let validMoves := getValidMoves m
          if validMoves = [] then
            if getValidMoves (flipTurn (copyBoard m)) = [] then
              (evaluate (markOver (flipTurn (copyBoard m))) p, n1)
            else alphabeta sf B p d' (flipTurn (copyBoard m)) α β (!mx) n1
          else
            let ordered :=
              if validMoves.length > 1 then orderMoves sf m validMoves p mx else validMoves
            if mx then
              abLoopMaxC (fun mv α' n' => alphabeta sf B p d' (simulateMove m mv) α' β false n')
                β ordered α INT_MIN n1
            else
              abLoopMinC (fun mv β' n' => alphabeta sf B p d' (simulateMove m mv) α β' true n')
                α ordered β INT_MAX n1

/-- The maximizing for-loop of `alphabeta` without the node counter. -/
def abLoopMaxP (f : Square → Int → Int) (β : Int) : List Square → Int → Int → Int
  | [], _, acc => acc
  | mv :: ms, α, acc =>
    let e := f mv α
    let acc' := max acc e
    let α' := max α e
    if β ≤ α' then acc' else abLoopMaxP f β ms α' acc'

/-- The minimizing for-loop of `alphabeta` without the node counter. -/
def abLoopMinP (f : Square → Int → Int) (α : Int) : List Square → Int → Int → Int
  | [], _, acc => acc
  | mv :: ms, β, acc =>
    let e := f mv β
    let acc' := min acc e
    let β' := min β e
    if β' ≤ α then acc' else abLoopMinP f α ms β' acc'

/-- `alphabeta` with the node counter and its emergency cutoff removed: the
search as it behaves whenever the budget is never reached
(`alphabeta_eq_pure_of_lt_budget`). -/
def alphabetaPure (sf : List ScoredMove → List ScoredMove) (p : Player) :
    Nat → GameModel → Int → Int → Bool → Int
  | 0, m, _, _, _ => evaluate m p
  | d' + 1, m, α, β, mx =>
    if m.gameOver then evaluate m p
    else
      let validMoves := getValidMoves m
      if validMoves = [] then
        if getValidMoves (flipTurn (copyBoard m)) = [] then
          evaluate (markOver (flipTurn (copyBoard m))) p
        else alphabetaPure sf p d' (flipTurn (copyBoard m)) α β (!mx)
      else
        let ordered :=
          if validMoves.length > 1 then orderMoves sf m validMoves p mx else validMoves
        if mx then
          abLoopMaxP (fun mv α' => alphabetaPure sf p d' (simulateMove m mv) α' β false)
            β ordered α INT_MIN
        else
          abLoopMinP (fun mv β' => alphabetaPure sf p d' (simulateMove m mv) α β' true)
            α ordered β INT_MAX

/-- Exhaustive brute-force minimax over the same game tree: the structure
of the plain `minimax` of the sources (depth/terminal base case, the same
pass rule, fold of max or min over every child), instantiated — as the
spec's cross-check demands — with the same evaluation function `evaluate`
as the alpha-beta search. -/
def minimax (p : Player) : Nat → GameModel → Bool → Int
  | 0, m, _ => evaluate m p
  | d' + 1, m, mx =>
    if m.gameOver then evaluate m p
    else
      let validMoves := getValidMoves m
      if validMoves = [] then
        if getValidMoves (flipTurn (copyBoard m)) = [] then
          evaluate (markOver (flipTurn (copyBoard m))) p
        else minimax p d' (flipTurn (copyBoard m)) (!mx)
      else if mx then
        validMoves.foldl (fun acc mv => max acc (minimax p d' (simulateMove m mv) false)) INT_MIN
      else
        validMoves.foldl (fun acc mv => min acc (minimax p d' (simulateMove m mv) true)) INT_MAX

/-- The root for-loop of `getBestMove`: track the best move and value
(strict improvement, so the first best seen wins ties), raise alpha, never
cut (every root child is searched). -/
def rootLoop (f : Square → Int → Nat → Int × Nat) :
    List Square → Square → Int → Int → Nat → Square × Nat
  | [], best, _, _, n => (best, n)
  | mv :: ms, best, bestVal, α, n =>
    let r := f mv α n
    let best' := if bestVal < r.1 then mv else best
    let bestVal' := if bestVal < r.1 then r.1 else bestVal
    let α' := max α r.1
    rootLoop f ms best' bestVal' α' r.2

/-- C++ `getBestMove` of the enhanced AI, the engine facade, with the
global node counter threaded (in as `g`, out as the second component):
sentinel on zero legal moves, immediate return on exactly one, otherwise
reset the counter to zero, pick the adaptive depth, order the root moves
and run the root loop over the simulated children. -/
def getBestMove (sf : List ScoredMove → List ScoredMove) (B : Nat)
    (m : GameModel) (g : Nat) : Square × Nat :=
  match getValidMoves m with
  | [] => (GAME_INVALID_SQUARE, g)
  | mv0 :: rest =>
    if rest = [] then (mv0, g)
    else
      let searchDepth := getSearchDepth m
      let aiPlayer := m.currentPlayer
      let ordered := orderMoves sf m (getValidMoves m) aiPlayer true
      rootLoop
        (fun mv α n =>
          alphabeta sf B aiPlayer (searchDepth - 1) (simulateMove m mv) α INT_MAX false n)
        ordered mv0 INT_MIN INT_MIN 0

/-- The board seeded by `startModel`: the four centre cells alternately
coloured (board[3][3] = board[4][4] = white, board[3][4] = board[4][3] =
black), everything else empty. -/
def initialBoard : Board := fun y x =>
  if (y : Nat) = 3 ∧ (x : Nat) = 3 then Piece.white
  else if (y : Nat) = 3 ∧ (x : Nat) = 4 then Piece.black
  else if (y : Nat) = 4 ∧ (x : Nat) = 4 then Piece.white
  else if (y : Nat) = 4 ∧ (x : Nat) = 3 then Piece.black
  else Piece.empty

/-- The game state created by `startModel`: seeded board, black to move,
not terminal. -/
def initialModel : GameModel :=
  { board := initialBoard, currentPlayer := Player.black, gameOver := false }

/-- States reachable from the seeded initial position by applying legal
moves through `playMove`. -/
inductive Reachable : GameModel → Prop where
  | init : Reachable initialModel
  | step (m : GameModel) (mv : Square) (h : mv ∈ getValidMoves m)
      (hr : Reachable m) : Reachable (playMove m mv).1

/-- Full game state including the fields the search never touches: the
per-player accumulated times and the turn-start timestamp, over an
arbitrary time type (C++ `double`; no claim computes with it). -/
structure GameModelT (τ : Type) where
  board : Board
  currentPlayer : Player
  gameOver : Bool
  playerTime : Player → τ
  turnTimer : τ

/-- The core fields of a full state. -/
def GameModelT.core {τ : Type} (m : GameModelT τ) : GameModel :=
  { board := m.board, currentPlayer := m.currentPlayer, gameOver := m.gameOver }

/-- C++ `playMove` on the full state: the board logic of `playMove` plus
the timer update (`playerTime[currentPlayer] += now - turnTimer;
turnTimer = now`) that precedes the player swap, with `GetTime()` passed
in as `now`. -/
def playMoveT {τ : Type} [Add τ] [Sub τ] (now : τ) (m : GameModelT τ) (mv : Square) :
    GameModelT τ × Bool :=
  let r := playMove m.core mv
  ({ board := r.1.board, currentPlayer := r.1.currentPlayer, gameOver := r.1.gameOver,
     playerTime := fun q =>
       if q = m.currentPlayer then m.playerTime q + (now - m.turnTimer) else m.playerTime q,
     turnTimer := now }, r.2)

/-- C++ `simulateMove(model, move, newModel)` with both reference
parameters threaded explicitly: the first component is the final value of
`model` (written by no statement of the body), the second the final value
of `newModel` (`copyBoard` copies board, player and flag onto the
uninitialised local `newInit`, then `playMove` runs on that copy). -/
def simulateMoveRef {τ : Type} [Add τ] [Sub τ] (now : τ) (m : GameModelT τ) (mv : Square)
    (newInit : GameModelT τ) : GameModelT τ × GameModelT τ :=
  let dest : GameModelT τ :=
    { newInit with board := m.board, currentPlayer := m.currentPlayer, gameOver := m.gameOver }
  (m, (playMoveT now dest mv).1)

/-- C++ `getBestMove(model)` with the reference parameter and the global
node counter threaded explicitly: no statement of `getBestMove`,
`orderMoves`, `simulateMove` or `alphabeta` writes through `model` (all
mutation happens on the local copies), so the threaded final value of the
caller's state is the input itself. -/
def getBestMoveRef {τ : Type} (sf : List ScoredMove → List ScoredMove) (B : Nat)
    (m : GameModelT τ) (g : Nat) : Square × GameModelT τ × Nat :=
  let r := getBestMove sf B m.core g
  (r.1, m, r.2)

/-- The identity as a `std::sort` stand-in: it trivially returns a
permutation of its input, which is all the correctness theorems use. -/
def idSort : List ScoredMove → List ScoredMove := fun l => l

/-- Test board for the pass rule: black on (0,0), white on (0,1), column
0, everything else empty.  White (to move) has no legal move, black has
exactly one, (0,2). -/
def tinyBoard : Board := fun y x =>
  if (y : Nat) = 0 ∧ (x : Nat) = 0 then Piece.black
  else if (y : Nat) = 1 ∧ (x : Nat) = 0 then Piece.white
  else Piece.empty

/-- Pass-rule test state: `tinyBoard` with white to move. -/
def tinyModel : GameModel :=
  { board := tinyBoard, currentPlayer := Player.white, gameOver := false }

/-- Endgame test board: 51 black pieces (rows 0-5 and three cells of row
6), 13 empty squares — total at least 50 and an odd number of empties. -/
def endgameBoard : Board := fun y x =>
  if (y : Nat) ≤ 5 ∨ ((y : Nat) = 6 ∧ (x : Nat) ≤ 2) then Piece.black
  else Piece.empty

/-- Endgame test state: `endgameBoard` with black to move. -/
def endgameModel : GameModel :=
  { board := endgameBoard, currentPlayer := Player.black, gameOver := false }

/-- Row-major strict order on squares: earlier row, or same row and
earlier column. -/
def rowMajorLt (a c : Square) : Prop :=
  a.y < c.y ∨ (a.y = c.y ∧ a.x < c.x)

/-- The initial full state (timers zeroed, as `startModel` writes them),
over integer time for concrete tests. -/
def initialModelT : GameModelT Int :=
  { board := initialBoard, currentPlayer := Player.black, gameOver := false,
    playerTime := fun _ => 0, turnTimer := 0 }

set_option maxRecDepth 100000

/-- C7: the parity term of `evaluate` is 0 whenever the board has fewer
than 50 pieces or an even number of empty squares, and is exactly +10 when
it is the perspective's turn and -10 otherwise once the board has at least
50 pieces and an odd number of empty squares; `evaluate` is the sum of its
five terms, parity included. -/
theorem parity_term_spec (m : GameModel) (pl : Player) :
    (totalPieces m.board < 50 ∨ (64 - totalPieces m.board) % 2 = 0 →
      parityValue m.currentPlayer pl (totalPieces m.board) = 0) ∧
    (50 ≤ totalPieces m.board → (64 - totalPieces m.board) % 2 = 1 →
      parityValue m.currentPlayer pl (totalPieces m.board) =
        if m.currentPlayer = pl then 10 else -10) ∧
    evaluate m pl =
      positionalValue m.board pl + mobilityValue m.board pl (totalPieces m.board)
        + stabilityValue m.board pl + parityValue m.currentPlayer pl (totalPieces m.board)
        + pieceValue m.board pl (totalPieces m.board) := by
  refine ⟨?_, ?_, rfl⟩
  · unfold parityValue
    rintro (h | h)
    · rw [if_neg (by omega)]
    · split_ifs with h1 h2 h3 <;> first | rfl | omega
  · intro h1 h2
    unfold parityValue
    rw [if_pos h1, if_pos h2]

/-- C7 witness: on the 51-piece board (13 empty squares, odd) with black
both to move and the perspective, the parity term is exactly +10. -/
theorem parity_term_spec_witness :
    50 ≤ totalPieces endgameModel.board ∧ (64 - totalPieces endgameModel.board) % 2 = 1 ∧
    parityValue endgameModel.currentPlayer Player.black (totalPieces endgameModel.board) = 10 := by
  refine ⟨by decide, by decide, ?_⟩
  have h := (parity_term_spec endgameModel Player.black).2.1 (by decide) (by decide)
  rw [h]
  decide

/-- C2: `playMove` does not validate its move: called on the initial
position with (0,0) — which is not a legal move — it still returns `true`
and mutates the board, instead of rejecting the move and leaving the state
unchanged. -/
theorem playMove_accepts_illegal_move :
    (⟨0, 0⟩ : Square) ∉ getValidMoves initialModel ∧
    (playMove initialModel ⟨0, 0⟩).2 = true ∧
    (playMove initialModel ⟨0, 0⟩).1.board ≠ initialModel.board := by
  refine ⟨by decide, rfl, ?_⟩
  intro h
  have h00 : (playMove initialModel ⟨0, 0⟩).1.board ⟨0, by omega⟩ ⟨0, by omega⟩ =
      initialModel.board ⟨0, by omega⟩ ⟨0, by omega⟩ := by rw [h]
  revert h00
  decide

/-- C9: producing a simulated child for a legal move leaves the caller's
state — every field, timers included — unchanged, and so does an entire
`getBestMove` call: both reference parameters are threaded explicitly and
no write reaches them. -/
theorem search_leaves_caller_state_unchanged {τ : Type} [Add τ] [Sub τ]
    (now : τ) (m : GameModelT τ) (mv : Square)
    (_hmv : mv ∈ getValidMovesBP m.board m.currentPlayer)
    (newInit : GameModelT τ) (sf : List ScoredMove → List ScoredMove) (B g : Nat) :
    (simulateMoveRef now m mv newInit).1 = m ∧ (getBestMoveRef sf B m g).2.1 = m :=
  ⟨rfl, rfl⟩

/-- C9 witness: concrete instance on the initial full state and the legal
opening move (3,2). -/
theorem search_leaves_caller_state_unchanged_witness :
    (⟨3, 2⟩ : Square) ∈ getValidMovesBP initialModelT.board initialModelT.currentPlayer ∧
    (simulateMoveRef (0 : Int) initialModelT ⟨3, 2⟩ initialModelT).1 = initialModelT ∧
    (getBestMoveRef idSort MAX_NODES_ENHANCED initialModelT 0).2.1 = initialModelT := by
  have h := search_leaves_caller_state_unchanged (0 : Int) initialModelT ⟨3, 2⟩ (by decide)
    initialModelT idSort MAX_NODES_ENHANCED 0
  exact ⟨by decide, h.1, h.2⟩

/-- C3: at positive depth on a non-terminal state within the node budget,
when the side to move has no legal move, `alphabeta` synthesizes a pass:
if the opponent is also stuck it returns the evaluation of a copy marked
terminal, otherwise it recurses on the flipped position with depth - 1,
negated maximizing flag and the same alpha and beta — no termination, no
error. -/
theorem alphabeta_pass_spec (sf : List ScoredMove → List ScoredMove) (B : Nat) (p : Player)
    (d : Nat) (m : GameModel) (α β : Int) (mx : Bool) (n : Nat)
    (hbudget : n + 1 < B) (hterm : m.gameOver = false)
    (hnomoves : getValidMoves m = []) :
    (getValidMoves (flipTurn m) = [] →
      alphabeta sf B p (d + 1) m α β mx n =
        (evaluate (markOver (flipTurn m)) p, n + 1)) ∧
    (getValidMoves (flipTurn m) ≠ [] →
      alphabeta sf B p (d + 1) m α β mx n =
        alphabeta sf B p d (flipTurn m) α β (!mx) (n + 1)) := by
  have hflip : flipTurn (copyBoard m) = flipTurn m := rfl
  constructor
  · intro hopp
    simp only [alphabeta]
    rw [if_neg (by omega)]
    simp only [hterm, Bool.false_eq_true, if_false]
    rw [if_pos hnomoves, hflip, if_pos hopp]
  · intro hopp
    simp only [alphabeta]
    rw [if_neg (by omega)]
    simp only [hterm, Bool.false_eq_true, if_false]
    rw [if_pos hnomoves, hflip, if_neg hopp]

/-- C3 witness: on `tinyModel` white has no move but black does, so a
depth-2 search for white continues as a depth-1 search of the flipped
position. -/
theorem alphabeta_pass_spec_witness :
    alphabeta idSort 500000 Player.white 2 tinyModel INT_MIN INT_MAX true 0 =
      alphabeta idSort 500000 Player.white 1 (flipTurn tinyModel) INT_MIN INT_MAX false 1 :=
  (alphabeta_pass_spec idSort 500000 Player.white 1 tinyModel INT_MIN INT_MAX true 0
    (by omega) rfl (by decide)).2 (by decide)

lemma orderMoves_perm (sf : List ScoredMove → List ScoredMove)
    (hsf : ∀ l : List ScoredMove, (sf l).Perm l)
    (m : GameModel) (mvs : List Square) (p : Player) (mx : Bool) :
    (orderMoves sf m mvs p mx).Perm mvs := by
  have h2 := (hsf (mvs.map fun mv =>
    ({ move := mv,
       score := if mx then evaluate (simulateMove m mv) p
         else -evaluate (simulateMove m mv) p } : ScoredMove))).map
    (fun sm : ScoredMove => sm.move)
  rw [List.map_map] at h2
  have h4 : mvs.map ((fun sm : ScoredMove => sm.move) ∘ fun mv =>
      ({ move := mv,
         score := if mx then evaluate (simulateMove m mv) p
           else -evaluate (simulateMove m mv) p } : ScoredMove)) = mvs := List.map_id mvs
  rw [h4] at h2
  exact h2

lemma getValidMovesBP_length_le (b : Board) (pl : Player) :
    (getValidMovesBP b pl).length ≤ 64 := by
  unfold getValidMovesBP
  rw [List.length_flatMap]
  have h : ∀ x ∈ (List.range 8).map
      (fun (y : Nat) => (((List.range 8).filter fun (x : Nat) =>
        squareIsValidMove b (pieceOf pl) (pieceOf (otherPlayer pl)) (x : Int) (y : Int)).map
          fun (x : Nat) => (⟨(x : Int), (y : Int)⟩ : Square)).length), x ≤ 8 := by
    intro x hx
    rcases List.mem_map.mp hx with ⟨y, _, rfl⟩
    calc _ = _ := List.length_map _ _
      _ ≤ (List.range 8).length := List.length_filter_le _ _
      _ = 8 := List.length_range 8
  calc _ ≤ _ := List.sum_le_card_nsmul _ 8 h
    _ ≤ 64 := by simp

lemma abLoopMaxC_counter_le (f : Square → Int → Nat → Int × Nat) (β : Int)
    (ms : List Square) (α acc : Int) (n : Nat)
    (hf : ∀ mv α' n', n' ≤ (f mv α' n').2) :
    n ≤ (abLoopMaxC f β ms α acc n).2 := by
  induction ms generalizing α acc n with
  | nil => simp [abLoopMaxC]
  | cons mv ms ih =>
    simp only [abLoopMaxC]
    split_ifs
    · exact hf mv α n
    · exact le_trans (hf mv α n) (ih _ _ _)

lemma abLoopMinC_counter_le (f : Square → Int → Nat → Int × Nat) (α : Int)
    (ms : List Square) (β acc : Int) (n : Nat)
    (hf : ∀ mv β' n', n' ≤ (f mv β' n').2) :
    n ≤ (abLoopMinC f α ms β acc n).2 := by
  induction ms generalizing β acc n with
  | nil => simp [abLoopMinC]
  | cons mv ms ih =>
    simp only [abLoopMinC]
    split_ifs
    · exact hf mv β n
    · exact le_trans (hf mv β n) (ih _ _ _)

lemma abLoopMaxC_counter_bound (f : Square → Int → Nat → Int × Nat) (β : Int) (K : Nat)
    (hf : ∀ mv α' n', (f mv α' n').2 ≤ max (n' + 1) K) :
    ∀ (ms : List Square) (α acc : Int) (n : Nat),
      (abLoopMaxC f β ms α acc n).2 ≤ max (n + ms.length) (K + ms.length) := by
  intro ms
  induction ms with
  | nil => intro α acc n; simp [abLoopMaxC]
  | cons mv ms ih =>
    intro α acc n
    simp only [abLoopMaxC, List.length_cons]
    split_ifs
    · have := hf mv α n
      omega
    · have h1 := hf mv α n
      have h2 := ih (max α (f mv α n).1) (max acc (f mv α n).1) (f mv α n).2
      omega

lemma abLoopMinC_counter_bound (f : Square → Int → Nat → Int × Nat) (α : Int) (K : Nat)
    (hf : ∀ mv β' n', (f mv β' n').2 ≤ max (n' + 1) K) :
    ∀ (ms : List Square) (β acc : Int) (n : Nat),
      (abLoopMinC f α ms β acc n).2 ≤ max (n + ms.length) (K + ms.length) := by
  intro ms
  induction ms with
  | nil => intro β acc n; simp [abLoopMinC]
  | cons mv ms ih =>
    intro β acc n
    simp only [abLoopMinC, List.length_cons]
    split_ifs
    · have := hf mv β n
      omega
    · have h1 := hf mv β n
      have h2 := ih (min β (f mv β n).1) (min acc (f mv β n).1) (f mv β n).2
      omega

lemma alphabeta_budget_immediate (sf : List ScoredMove → List ScoredMove) (B : Nat)
    (p : Player) (d : Nat) (m : GameModel) (α β : Int) (mx : Bool) (n : Nat)
    (h : B ≤ n + 1) :
    alphabeta sf B p d m α β mx n = (evaluate m p, n + 1) := by
  cases d <;> (simp only [alphabeta]; rw [if_pos h])

lemma alphabeta_counter_le (sf : List ScoredMove → List ScoredMove) (B : Nat) (p : Player) :
    ∀ (d : Nat) (m : GameModel) (α β : Int) (mx : Bool) (n : Nat),
      n + 1 ≤ (alphabeta sf B p d m α β mx n).2 := by
  intro d
  induction d with
  | zero =>
    intro m α β mx n
    simp only [alphabeta]
    split_ifs <;> simp
  | succ d ih =>
    intro m α β mx n
    by_cases h1 : B ≤ n + 1
    · rw [alphabeta_budget_immediate sf B p _ m α β mx n h1]
    · simp only [alphabeta]
      rw [if_neg h1]
      by_cases h2 : m.gameOver = true
      · simp [h2]
      · simp only [h2, Bool.false_eq_true, if_false]
        by_cases h3 : getValidMoves m = []
        · rw [if_pos h3]
          by_cases h4 : getValidMoves (flipTurn (copyBoard m)) = []
          · rw [if_pos h4]
          · rw [if_neg h4]
            exact le_trans (by omega) (ih _ _ _ _ _)
        · rw [if_neg h3]
          by_cases h5 : mx = true
          · rw [if_pos h5]
            exact abLoopMaxC_counter_le _ _ _ _ _ _
              (fun mv α' n' => le_trans (Nat.le_succ n') (ih _ _ _ _ _))
          · rw [if_neg h5]
            exact abLoopMinC_counter_le _ _ _ _ _ _
              (fun mv β' n' => le_trans (Nat.le_succ n') (ih _ _ _ _ _))

lemma alphabeta_counter_bound (sf : List ScoredMove → List ScoredMove)
    (hsf : ∀ l : List ScoredMove, (sf l).Perm l) (B : Nat) (p : Player) :
    ∀ (d : Nat) (m : GameModel) (α β : Int) (mx : Bool) (n : Nat),
      (alphabeta sf B p d m α β mx n).2 ≤ max (n + 1) (B + 64 * d) := by
  intro d
  induction d with
  | zero =>
    intro m α β mx n
    simp only [alphabeta]
    split_ifs <;> simp
  | succ d ih =>
    intro m α β mx n
    by_cases h1 : B ≤ n + 1
    · rw [alphabeta_budget_immediate sf B p _ m α β mx n h1]
      simp
    · simp only [not_le] at h1
      have hn1B : n + 1 < B := h1
      simp only [alphabeta]
      rw [if_neg (by omega)]
      by_cases h2 : m.gameOver = true
      · simp [h2]
      · simp only [h2, Bool.false_eq_true, if_false]
        by_cases h3 : getValidMoves m = []
        · rw [if_pos h3]
          by_cases h4 : getValidMoves (flipTurn (copyBoard m)) = []
          · rw [if_pos h4]
            simp
          · rw [if_neg h4]
            have := ih (flipTurn (copyBoard m)) α β (!mx) (n + 1)
            omega
        · rw [if_neg h3]
          have hlen : (if (getValidMoves m).length > 1
              then orderMoves sf m (getValidMoves m) p mx else getValidMoves m).length ≤ 64 := by
            split_ifs
            · rw [(orderMoves_perm sf hsf m (getValidMoves m) p mx).length_eq]
              exact getValidMovesBP_length_le _ _
            · exact getValidMovesBP_length_le _ _
          by_cases h5 : mx = true
          · rw [if_pos h5]
            have h6 := abLoopMaxC_counter_bound
              (fun mv α' n' => alphabeta sf B p d (simulateMove m mv) α' β false n') β
              (B + 64 * d) (fun mv α' n' => ih _ _ _ _ _)
              (if (getValidMoves m).length > 1
                then orderMoves sf m (getValidMoves m) p mx else getValidMoves m)
              α INT_MIN (n + 1)
            omega
          · rw [if_neg h5]
            have h6 := abLoopMinC_counter_bound
              (fun mv β' n' => alphabeta sf B p d (simulateMove m mv) α β' true n') α
              (B + 64 * d) (fun mv β' n' => ih _ _ _ _ _)
              (if (getValidMoves m).length > 1
                then orderMoves sf m (getValidMoves m) p mx else getValidMoves m)
              β INT_MAX (n + 1)
            omega

/-- C4: every `alphabeta` call increments the node counter first; once the
counter has reached the configured budget (100,000 basic, 500,000
enhanced) the call returns `evaluate(state, perspective)` immediately —
before the depth and terminal checks, with no move generation and no
recursion, so the counter grows by exactly one — and the counter never
exceeds the budget plus the in-flight slack (at most 64 pending siblings
per open ply). -/
theorem alphabeta_node_budget (sf : List ScoredMove → List ScoredMove)
    (hsf : ∀ l : List ScoredMove, (sf l).Perm l) (B : Nat)
    (_hB : B = MAX_NODES_BASIC ∨ B = MAX_NODES_ENHANCED) (p : Player)
    (d : Nat) (m : GameModel) (α β : Int) (mx : Bool) (n : Nat) :
    (B ≤ n + 1 → alphabeta sf B p d m α β mx n = (evaluate m p, n + 1)) ∧
    n + 1 ≤ (alphabeta sf B p d m α β mx n).2 ∧
    (alphabeta sf B p d m α β mx n).2 ≤ max (n + 1) (B + 64 * d) :=
  ⟨alphabeta_budget_immediate sf B p d m α β mx n,
   alphabeta_counter_le sf B p d m α β mx n,
   alphabeta_counter_bound sf hsf B p d m α β mx n⟩

/-- C4 witness: with the counter already at the enhanced budget, a deep
call on the initial position returns the evaluation at once, growing the
counter by exactly one. -/
theorem alphabeta_node_budget_witness :
    alphabeta idSort MAX_NODES_ENHANCED Player.black 12 initialModel INT_MIN INT_MAX true
        MAX_NODES_ENHANCED =
      (evaluate initialModel Player.black, MAX_NODES_ENHANCED + 1) ∧
    MAX_NODES_ENHANCED + 1 ≤
      (alphabeta idSort MAX_NODES_ENHANCED Player.black 12 initialModel INT_MIN INT_MAX true
        MAX_NODES_ENHANCED).2 := by
  have h := alphabeta_node_budget idSort (fun l => List.Perm.refl l) MAX_NODES_ENHANCED
    (Or.inr rfl) Player.black 12 initialModel INT_MIN INT_MAX true MAX_NODES_ENHANCED
  exact ⟨h.1 (by omega), h.2.1⟩

lemma mem_getValidMovesBP_coords {b : Board} {pl : Player} {mv : Square}
    (hmv : mv ∈ getValidMovesBP b pl) :
    0 ≤ mv.x ∧ mv.x < 8 ∧ 0 ≤ mv.y ∧ mv.y < 8 := by
  unfold getValidMovesBP at hmv
  simp only [List.mem_flatMap, List.mem_map, List.mem_filter, List.mem_range] at hmv
  obtain ⟨y, hy, x, ⟨hx, _⟩, rfl⟩ := hmv
  refine ⟨?_, ?_, ?_, ?_⟩ <;> dsimp only <;> omega

lemma rootLoop_mem (f : Square → Int → Nat → Int × Nat) :
    ∀ (ms : List Square) (best : Square) (bv α : Int) (n : Nat),
      (rootLoop f ms best bv α n).1 = best ∨ (rootLoop f ms best bv α n).1 ∈ ms := by
  intro ms
  induction ms with
  | nil => intro best bv α n; left; rfl
  | cons mv ms ih =>
    intro best bv α n
    simp only [rootLoop]
    rcases ih (if bv < (f mv α n).1 then mv else best)
      (if bv < (f mv α n).1 then (f mv α n).1 else bv)
      (max α (f mv α n).1) (f mv α n).2 with h | h
    · rw [h]
      split_ifs
      · right; exact List.mem_cons_self mv ms
      · left; rfl
    · right; exact List.mem_cons_of_mem _ h

/-- C10: `getBestMove` returns `GAME_INVALID_SQUARE` exactly when the side
to move has no legal move; with exactly one legal move it returns that
move immediately, leaving the node counter untouched (zero nodes
counted). -/
theorem getBestMove_trivial_cases (sf : List ScoredMove → List ScoredMove)
    (hsf : ∀ l : List ScoredMove, (sf l).Perm l) (B : Nat) (m : GameModel) (g : Nat) :
    ((getBestMove sf B m g).1 = GAME_INVALID_SQUARE ↔ getValidMoves m = []) ∧
    (∀ mv : Square, getValidMoves m = [mv] → getBestMove sf B m g = (mv, g)) := by
  have hne : ∀ q ∈ getValidMoves m, q ≠ GAME_INVALID_SQUARE := by
    intro q hq hbad
    have hco := mem_getValidMovesBP_coords hq
    rw [hbad] at hco
    simp only [GAME_INVALID_SQUARE] at hco
    omega
  constructor
  · cases hvm : getValidMoves m with
    | nil =>
      unfold getBestMove
      rw [hvm]
      simp
    | cons mv0 rest =>
      have hmv0 : mv0 ∈ getValidMoves m := by rw [hvm]; exact List.mem_cons_self _ _
      unfold getBestMove
      rw [hvm]
      dsimp only
      by_cases hrest : rest = []
      · rw [if_pos hrest]
        simp only [hvm]
        constructor
        · intro hbad
          exact absurd hbad (hne mv0 hmv0)
        · intro hbad
          exact absurd hbad (List.cons_ne_nil mv0 rest)
      · rw [if_neg hrest]
        constructor
        · intro hbad
          rcases rootLoop_mem _ _ mv0 INT_MIN INT_MIN 0 with h | h
          · exact absurd (h ▸ hbad) (hne mv0 hmv0)
          · have hp : (orderMoves sf m (mv0 :: rest) m.currentPlayer true).Perm
                (mv0 :: rest) := orderMoves_perm sf hsf m (mv0 :: rest) _ true
            have hmem := hp.mem_iff.mp (hbad ▸ h)
            exact absurd rfl (hne _ (hvm ▸ hmem))
        · intro hbad
          exact absurd hbad (List.cons_ne_nil mv0 rest)
  · intro mv hone
    unfold getBestMove
    rw [hone]
    simp

/-- C10 witness: on the state where black has exactly one legal move
(0,2), `getBestMove` returns it with the node counter left at 0. -/
theorem getBestMove_trivial_cases_witness :
    getBestMove idSort MAX_NODES_ENHANCED (flipTurn tinyModel) 0 = (⟨0, 2⟩, 0) :=
  (getBestMove_trivial_cases idSort (fun l => List.Perm.refl l) MAX_NODES_ENHANCED
    (flipTurn tinyModel) 0).2 ⟨0, 2⟩ (by decide)

lemma pairwise_flatMap_ranges {R : Square → Square → Prop} (f : Nat → List Square)
    (l : List Nat) (hl : l.Pairwise (· < ·))
    (hin : ∀ y ∈ l, (f y).Pairwise R)
    (hcross : ∀ a c, a ∈ l → c ∈ l → a < c → ∀ u ∈ f a, ∀ v ∈ f c, R u v) :
    (l.flatMap f).Pairwise R := by
  induction l with
  | nil => simp
  | cons y l ih =>
    rw [List.flatMap_cons, List.pairwise_append]
    obtain ⟨hy, hl'⟩ := List.pairwise_cons.mp hl
    refine ⟨hin y (List.mem_cons_self _ _),
      ih hl' (fun z hz => hin z (List.mem_cons_of_mem _ hz))
        (fun a c ha hc hac => hcross a c (List.mem_cons_of_mem _ ha)
          (List.mem_cons_of_mem _ hc) hac), ?_⟩
    intro u hu v hv
    obtain ⟨c, hc, hvc⟩ := List.mem_flatMap.mp hv
    exact hcross y c (List.mem_cons_self _ _) (List.mem_cons_of_mem _ hc) (hy c hc) u hu v hvc

lemma getValidMovesBP_pairwise (b : Board) (pl : Player) :
    (getValidMovesBP b pl).Pairwise rowMajorLt := by
  unfold getValidMovesBP
  apply pairwise_flatMap_ranges
  · exact List.pairwise_lt_range 8
  · intro y _
    rw [List.pairwise_map]
    refine List.Pairwise.imp ?_ ((List.pairwise_lt_range 8).sublist (List.filter_sublist _))
    intro a c h
    exact Or.inr ⟨rfl, by dsimp only; exact_mod_cast h⟩
  · intro a c _ _ hac u hu v hv
    obtain ⟨xu, _, rfl⟩ := List.mem_map.mp hu
    obtain ⟨xv, _, rfl⟩ := List.mem_map.mp hv
    exact Or.inl (by dsimp only; exact_mod_cast hac)

lemma getValidMovesBP_nodup (b : Board) (pl : Player) :
    (getValidMovesBP b pl).Nodup := by
  refine List.Pairwise.imp ?_ (getValidMovesBP_pairwise b pl)
  intro a c h heq
  subst heq
  rcases h with h | ⟨_, h⟩ <;> exact absurd h (lt_irrefl _)

lemma playMove_snd (m : GameModel) (mv : Square) : (playMove m mv).2 = true := by
  unfold playMove
  dsimp only
  split_ifs <;> rfl

lemma pieces_cover (pl : Player) :
    ∀ q : Piece, q = Piece.empty ∨ q = pieceOf pl ∨ q = pieceOf (otherPlayer pl) := by
  intro q
  cases pl <;> cases q <;> simp [pieceOf, otherPlayer]

lemma walkValid_sound (b : Board) (curP oppP : Piece)
    (hcov : ∀ q : Piece, q = Piece.empty ∨ q = curP ∨ q = oppP) (dx dy : Int) :
    ∀ (fuel : Nat) (x y : Int) (found : Bool),
      walkValid b curP oppP dx dy x y found fuel = true →
      ∃ j : Nat,
        (∀ i : Nat, i < j → isSquareValid (x + i * dx) (y + i * dy) ∧
          getPieceI b (x + i * dx) (y + i * dy) = oppP) ∧
        isSquareValid (x + j * dx) (y + j * dy) ∧
        getPieceI b (x + j * dx) (y + j * dy) = curP ∧
        (found = false → 1 ≤ j) := by
  intro fuel
  induction fuel with
  | zero =>
    intro x y found h
    simp [walkValid] at h
  | succ fuel ih =>
    intro x y found h
    simp only [walkValid] at h
    by_cases hv : isSquareValid x y
    · rw [if_pos hv] at h
      by_cases he : getPieceI b x y = Piece.empty
      · rw [if_pos he] at h
        exact absurd h (by simp)
      · rw [if_neg he] at h
        by_cases ho : getPieceI b x y = oppP
        · rw [if_pos ho] at h
          obtain ⟨j, hrun, hvj, hcur, _⟩ := ih (x + dx) (y + dy) true h
          have harith : ∀ (z dz : Int) (i : Nat), z + dz + (i : Int) * dz
              = z + ((i + 1 : Nat) : Int) * dz := by
            intro z dz i
            push_cast
            ring
          refine ⟨j + 1, ?_, ?_, ?_, fun _ => by omega⟩
          · intro i hi
            cases i with
            | zero => simpa using ⟨hv, ho⟩
            | succ i =>
              have hr := hrun i (by omega)
              rw [harith x dx i, harith y dy i] at hr
              exact hr
          · rw [← harith x dx j, ← harith y dy j]
            exact hvj
          · rw [← harith x dx j, ← harith y dy j]
            exact hcur
        · rw [if_neg ho] at h
          have hc : getPieceI b x y = curP := by
            rcases hcov (getPieceI b x y) with h1 | h1 | h1 <;> tauto
          refine ⟨0, fun i hi => absurd hi (by omega), by simpa using hv, by simpa using hc,
            fun hf => ?_⟩
          rw [hf] at h
          exact absurd h (by simp)
    · rw [if_neg hv] at h
      exact absurd h (by simp)

lemma squareIsValidMove_sound (b : Board) (curP oppP : Piece) (x y : Int)
    (h : squareIsValidMove b curP oppP x y = true) :
    getPieceI b x y = Piece.empty ∧
    ∃ d ∈ directionsV,
      walkValid b curP oppP d.1 d.2 (x + d.1) (y + d.2) false 8 = true := by
  unfold squareIsValidMove at h
  by_cases he : getPieceI b x y = Piece.empty
  · rw [if_neg (not_not_intro he)] at h
    exact ⟨he, by simpa using h⟩
  · rw [if_pos he] at h
    exact absurd h (by simp)

/-- C5: `legalMoves` returns a duplicate-free list in strict row-major
order; every returned coordinate is an empty cell with some direction
bracketing a run of at least one opponent piece by an own piece; and
applying any returned move is accepted (`playMove` returns `true`, there
being no rejection path at all). -/
theorem getValidMoves_spec (m : GameModel) :
    (getValidMoves m).Nodup ∧
    (getValidMoves m).Pairwise rowMajorLt ∧
    (∀ mv ∈ getValidMoves m,
      getPieceI m.board mv.x mv.y = Piece.empty ∧
      ∃ d ∈ directionsV, ∃ k : Nat, 1 ≤ k ∧
        (∀ i : Nat, 1 ≤ i → i ≤ k →
          isSquareValid (mv.x + i * d.1) (mv.y + i * d.2) ∧
          getPieceI m.board (mv.x + i * d.1) (mv.y + i * d.2)
            = pieceOf (otherPlayer m.currentPlayer)) ∧
        isSquareValid (mv.x + (k + 1 : Nat) * d.1) (mv.y + (k + 1 : Nat) * d.2) ∧
        getPieceI m.board (mv.x + (k + 1 : Nat) * d.1) (mv.y + (k + 1 : Nat) * d.2)
          = pieceOf m.currentPlayer) ∧
    (∀ mv ∈ getValidMoves m, (playMove m mv).2 = true) := by
  refine ⟨getValidMovesBP_nodup _ _, getValidMovesBP_pairwise _ _, ?_,
    fun mv _ => playMove_snd m mv⟩
  intro mv hmv
  have hval : squareIsValidMove m.board (pieceOf m.currentPlayer)
      (pieceOf (otherPlayer m.currentPlayer)) mv.x mv.y = true := by
    unfold getValidMoves getValidMovesBP at hmv
    simp only [List.mem_flatMap, List.mem_map, List.mem_filter, List.mem_range] at hmv
    obtain ⟨y, _, x, ⟨_, hpred⟩, rfl⟩ := hmv
    exact hpred
  obtain ⟨hemp, d, hd, hwalk⟩ := squareIsValidMove_sound _ _ _ _ _ hval
  refine ⟨hemp, d, hd, ?_⟩
  obtain ⟨j, hrun, hvj, hcur, hj⟩ :=
    walkValid_sound m.board _ _ (pieces_cover m.currentPlayer) d.1 d.2 8
      (mv.x + d.1) (mv.y + d.2) false hwalk
  have harith : ∀ (z dz : Int) (i : Nat), z + dz + (i : Int) * dz
      = z + ((i + 1 : Nat) : Int) * dz := by
    intro z dz i
    push_cast
    ring
  refine ⟨j, hj rfl, ?_, ?_, ?_⟩
  · intro i h1i hik
    obtain ⟨i', rfl⟩ : ∃ i', i = i' + 1 := ⟨i - 1, by omega⟩
    have hr := hrun i' (by omega)
    rw [harith mv.x d.1 i', harith mv.y d.2 i'] at hr
    exact hr
  · rw [← harith mv.x d.1 j]
    rw [← harith mv.y d.2 j]
    exact hvj
  · rw [← harith mv.x d.1 j]
    rw [← harith mv.y d.2 j]
    exact hcur

/-- C5 witness: concrete instance on the initial position; the opening
move (3,2) is a returned move, is accepted, and the whole list is
duplicate-free. -/
theorem getValidMoves_spec_witness :
    (getValidMoves initialModel).Nodup ∧
    getPieceI initialModel.board 3 2 = Piece.empty ∧
    (playMove initialModel ⟨3, 2⟩).2 = true := by
  have h := getValidMoves_spec initialModel
  exact ⟨h.1, (h.2.2.1 ⟨3, 2⟩ (by decide)).1, h.2.2.2 ⟨3, 2⟩ (by decide)⟩

lemma otherPlayer_invol (p : Player) : otherPlayer (otherPlayer p) = p := by
  cases p <;> rfl

lemma getValidMoves_mk (b : Board) (c : Player) (g : Bool) :
    getValidMoves ⟨b, c, g⟩ = getValidMovesBP b c := rfl

lemma flipTurn_mk (b : Board) (c : Player) (g : Bool) :
    flipTurn ⟨b, c, g⟩ = ⟨b, otherPlayer c, g⟩ := rfl

lemma playMove_terminal_iff (m : GameModel) (mv : Square) (hgo : m.gameOver = false) :
    ((playMove m mv).1.gameOver = true ↔
      getValidMoves (playMove m mv).1 = [] ∧
        getValidMoves (flipTurn (playMove m mv).1) = []) := by
  unfold playMove
  dsimp only
  simp only [getValidMoves_mk, flipTurn_mk, otherPlayer_invol]
  by_cases h1 : getValidMovesBP
      (boardAfterMove m.board (pieceOf m.currentPlayer)
        (pieceOf (otherPlayer m.currentPlayer)) mv)
      (otherPlayer m.currentPlayer) = []
  · rw [if_pos h1]
    by_cases h2 : getValidMovesBP
        (boardAfterMove m.board (pieceOf m.currentPlayer)
          (pieceOf (otherPlayer m.currentPlayer)) mv)
        m.currentPlayer = []
    · rw [if_pos h2]
      simp only [getValidMoves_mk, flipTurn_mk, otherPlayer_invol]
      simp [h1, h2]
    · rw [if_neg h2]
      simp only [getValidMoves_mk, flipTurn_mk, otherPlayer_invol]
      simp [hgo, h2]
  · rw [if_neg h1]
    simp only [getValidMoves_mk, flipTurn_mk, otherPlayer_invol]
    simp [hgo, h1]

/-- C8: for every state reachable from the seeded initial position by
applying legal moves, the terminal flag is true exactly when neither side
has a legal move on the current board; `playMove` re-establishes the
invariant after placement, flips, turn advancement and the implicit pass
back. -/
theorem terminal_flag_iff (m : GameModel) (h : Reachable m) :
    m.gameOver = true ↔
      (getValidMoves m = [] ∧ getValidMoves (flipTurn m) = []) := by
  induction h with
  | init =>
    constructor
    · intro hbad
      exact absurd hbad (by decide)
    · rintro ⟨hA, _⟩
      exact absurd hA (by decide)
  | step m mv hmv hr ih =>
    have hgo : m.gameOver = false := by
      rcases Bool.eq_false_or_eq_true m.gameOver with h0 | h0
      · obtain ⟨hA, _⟩ := ih.mp h0
        rw [hA] at hmv
        exact absurd hmv (List.not_mem_nil mv)
      · exact h0
    exact playMove_terminal_iff m mv hgo

/-- C8 witness: the seeded initial position is reachable, its flag is
false and black indeed has legal moves. -/
theorem terminal_flag_iff_witness :
    initialModel.gameOver = true ↔
      (getValidMoves initialModel = [] ∧ getValidMoves (flipTurn initialModel) = []) :=
  terminal_flag_iff initialModel Reachable.init

lemma le_foldl_max (g : Square → Int) :
    ∀ (l : List Square) (acc : Int), acc ≤ l.foldl (fun a mv => max a (g mv)) acc := by
  intro l
  induction l with
  | nil => intro acc; exact le_refl _
  | cons mv l ih => intro acc; exact le_trans (le_max_left _ _) (ih _)

lemma foldl_max_le (g : Square → Int) :
    ∀ (l : List Square) (acc c : Int), acc ≤ c → (∀ mv ∈ l, g mv ≤ c) →
      l.foldl (fun a mv => max a (g mv)) acc ≤ c := by
  intro l
  induction l with
  | nil => intro acc c h _; exact h
  | cons mv l ih =>
    intro acc c h hall
    exact ih _ _ (max_le h (hall mv (List.mem_cons_self _ _)))
      (fun q hq => hall q (List.mem_cons_of_mem _ hq))

lemma foldl_max_mem_le (g : Square → Int) :
    ∀ (l : List Square) (acc : Int) (mv : Square), mv ∈ l →
      g mv ≤ l.foldl (fun a mv => max a (g mv)) acc := by
  intro l
  induction l with
  | nil => intro acc mv h; exact absurd h (List.not_mem_nil mv)
  | cons q l ih =>
    intro acc mv h
    rcases List.mem_cons.mp h with rfl | h
    · exact le_trans (le_max_right _ _) (le_foldl_max g l _)
    · exact ih _ mv h

lemma foldl_max_init_max (g : Square → Int) :
    ∀ (l : List Square) (a b : Int),
      l.foldl (fun x mv => max x (g mv)) (max a b)
        = max b (l.foldl (fun x mv => max x (g mv)) a) := by
  intro l
  induction l with
  | nil => intro a b; exact max_comm a b
  | cons mv l ih =>
    intro a b
    simp only [List.foldl_cons]
    have h : max (max a b) (g mv) = max (max a (g mv)) b := by omega
    rw [h, ih]

lemma foldl_max_perm (g : Square → Int) {l₁ l₂ : List Square} (h : l₁.Perm l₂) :
    ∀ acc : Int, l₁.foldl (fun a mv => max a (g mv)) acc
      = l₂.foldl (fun a mv => max a (g mv)) acc := by
  induction h with
  | nil => intro acc; rfl
  | cons mv _ ih => intro acc; simp only [List.foldl_cons]; exact ih _
  | swap x y l =>
    intro acc
    simp only [List.foldl_cons]
    have h : max (max acc (g y)) (g x) = max (max acc (g x)) (g y) := by omega
    rw [h]
  | trans _ _ ih1 ih2 => intro acc; exact (ih1 acc).trans (ih2 acc)

lemma foldl_min_le_init (g : Square → Int) :
    ∀ (l : List Square) (acc : Int), l.foldl (fun a mv => min a (g mv)) acc ≤ acc := by
  intro l
  induction l with
  | nil => intro acc; exact le_refl _
  | cons mv l ih => intro acc; exact le_trans (ih _) (min_le_left _ _)

lemma le_foldl_min (g : Square → Int) :
    ∀ (l : List Square) (acc c : Int), c ≤ acc → (∀ mv ∈ l, c ≤ g mv) →
      c ≤ l.foldl (fun a mv => min a (g mv)) acc := by
  intro l
  induction l with
  | nil => intro acc c h _; exact h
  | cons mv l ih =>
    intro acc c h hall
    exact ih _ _ (le_min h (hall mv (List.mem_cons_self _ _)))
      (fun q hq => hall q (List.mem_cons_of_mem _ hq))

lemma foldl_min_mem_ge (g : Square → Int) :
    ∀ (l : List Square) (acc : Int) (mv : Square), mv ∈ l →
      l.foldl (fun a mv => min a (g mv)) acc ≤ g mv := by
  intro l
  induction l with
  | nil => intro acc mv h; exact absurd h (List.not_mem_nil mv)
  | cons q l ih =>
    intro acc mv h
    rcases List.mem_cons.mp h with rfl | h
    · exact le_trans (foldl_min_le_init g l _) (min_le_right _ _)
    · exact ih _ mv h

lemma foldl_min_init_min (g : Square → Int) :
    ∀ (l : List Square) (a b : Int),
      l.foldl (fun x mv => min x (g mv)) (min a b)
        = min b (l.foldl (fun x mv => min x (g mv)) a) := by
  intro l
  induction l with
  | nil => intro a b; exact min_comm a b
  | cons mv l ih =>
    intro a b
    simp only [List.foldl_cons]
    have h : min (min a b) (g mv) = min (min a (g mv)) b := by omega
    rw [h, ih]

lemma foldl_min_perm (g : Square → Int) {l₁ l₂ : List Square} (h : l₁.Perm l₂) :
    ∀ acc : Int, l₁.foldl (fun a mv => min a (g mv)) acc
      = l₂.foldl (fun a mv => min a (g mv)) acc := by
  induction h with
  | nil => intro acc; rfl
  | cons mv _ ih => intro acc; simp only [List.foldl_cons]; exact ih _
  | swap x y l =>
    intro acc
    simp only [List.foldl_cons]
    have h : min (min acc (g y)) (g x) = min (min acc (g x)) (g y) := by omega
    rw [h]
  | trans _ _ ih1 ih2 => intro acc; exact (ih1 acc).trans (ih2 acc)

lemma map_sum_abs_le (f : (Nat × Nat) → Int) (c : Int) :
    ∀ l : List (Nat × Nat), (∀ a ∈ l, |f a| ≤ c) →
      |(l.map f).sum| ≤ c * (l.length : Int) := by
  intro l
  induction l with
  | nil => intro _; simp
  | cons a l ih =>
    intro h
    simp only [List.map_cons, List.sum_cons, List.length_cons]
    have h1 := h a (List.mem_cons_self _ _)
    have h2 := ih (fun q hq => h q (List.mem_cons_of_mem _ hq))
    have h3 := abs_add (f a) (l.map f).sum
    push_cast
    linarith

lemma weight_abs_le : ∀ y x : Fin 8, |POSITION_WEIGHTS y x| ≤ 100 := by decide

lemma allCells_length : allCells.length = 64 := rfl

lemma positionalValue_abs_le (b : Board) (pl : Player) :
    |positionalValue b pl| ≤ 6400 := by
  unfold positionalValue
  dsimp only
  refine le_trans (map_sum_abs_le _ 100 allCells ?_) ?_
  · intro a _
    split_ifs
    · exact weight_abs_le _ _
    · rw [abs_neg]
      exact weight_abs_le _ _
    · norm_num
  · rw [allCells_length]
    norm_num

lemma stabilityValue_abs_le (b : Board) (pl : Player) :
    |stabilityValue b pl| ≤ 320 := by
  unfold stabilityValue
  dsimp only
  refine le_trans (map_sum_abs_le _ 5 allCells ?_) ?_
  · intro a _
    split_ifs <;> norm_num
  · rw [allCells_length]
    norm_num

lemma mobilityValue_abs_le (b : Board) (pl : Player) (total : Nat) :
    |mobilityValue b pl total| ≤ 262 := by
  unfold mobilityValue
  have h1 := getValidMovesBP_length_le b pl
  have h2 := getValidMovesBP_length_le b (otherPlayer pl)
  split_ifs <;> rw [abs_le] <;> constructor <;> push_cast <;> omega

lemma parityValue_abs_le (cur pl : Player) (total : Nat) :
    |parityValue cur pl total| ≤ 10 := by
  unfold parityValue
  split_ifs <;> norm_num

lemma getScore_le (b : Board) (pl : Player) : getScore b pl ≤ 64 := by
  calc getScore b pl ≤ allCells.length := List.countP_le_length _
    _ = 64 := allCells_length

lemma tdiv_two_within (a c : Int) (h1 : -c ≤ a) (h2 : a ≤ c) :
    -c ≤ a.tdiv 2 ∧ a.tdiv 2 ≤ c := by
  rcases le_or_lt 0 a with ha | ha
  · rw [Int.tdiv_eq_ediv ha (by omega)]
    omega
  · have hrw : a.tdiv 2 = -((-a).tdiv 2) := by
      rw [Int.neg_tdiv, Int.neg_neg]
    rw [hrw, Int.tdiv_eq_ediv (by omega) (by omega)]
    omega

lemma pieceValue_abs_le (b : Board) (pl : Player) (total : Nat) :
    |pieceValue b pl total| ≤ 320 := by
  unfold pieceValue
  dsimp only
  have h1 := getScore_le b pl
  have h2 := getScore_le b (otherPlayer pl)
  have hd : -(64 : Int) ≤ (getScore b pl : Int) - (getScore b (otherPlayer pl) : Int) ∧
      (getScore b pl : Int) - (getScore b (otherPlayer pl) : Int) ≤ 64 := by
    omega
  have htd := tdiv_two_within _ 64 hd.1 hd.2
  split_ifs <;> rw [abs_le] <;> constructor <;> omega

lemma evaluate_abs_le (m : GameModel) (pl : Player) : |evaluate m pl| ≤ 7312 := by
  unfold evaluate
  dsimp only
  have h1 := positionalValue_abs_le m.board pl
  have h2 := mobilityValue_abs_le m.board pl (totalPieces m.board)
  have h3 := stabilityValue_abs_le m.board pl
  have h4 := parityValue_abs_le m.currentPlayer pl (totalPieces m.board)
  have h5 := pieceValue_abs_le m.board pl (totalPieces m.board)
  rw [abs_le] at h1 h2 h3 h4 h5 ⊢
  constructor <;> omega

lemma minimax_abs_le (p : Player) :
    ∀ (d : Nat) (m : GameModel) (mx : Bool), |minimax p d m mx| ≤ 7312 := by
  intro d
  induction d with
  | zero => intro m mx; exact evaluate_abs_le m p
  | succ d ih =>
    intro m mx
    simp only [minimax]
    by_cases h2 : m.gameOver = true
    · rw [if_pos h2]
      exact evaluate_abs_le m p
    · rw [if_neg h2]
      by_cases h3 : getValidMoves m = []
      · rw [if_pos h3]
        by_cases h4 : getValidMoves (flipTurn (copyBoard m)) = []
        · rw [if_pos h4]
          exact evaluate_abs_le _ p
        · rw [if_neg h4]
          exact ih _ _
      · rw [if_neg h3]
        obtain ⟨mv0, hmv0⟩ := List.exists_mem_of_ne_nil _ h3
        by_cases h5 : mx = true
        · rw [if_pos h5, abs_le]
          constructor
          · calc (-7312 : Int) ≤ minimax p d (simulateMove m mv0) false :=
                (abs_le.mp (ih _ _)).1
              _ ≤ _ := foldl_max_mem_le _ _ _ _ hmv0
          · exact foldl_max_le _ _ _ _ (by norm_num [INT_MIN])
              (fun mv _ => (abs_le.mp (ih _ _)).2)
        · rw [if_neg h5, abs_le]
          constructor
          · exact le_foldl_min _ _ _ _ (by norm_num [INT_MAX])
              (fun mv _ => (abs_le.mp (ih _ _)).1)
          · calc _ ≤ minimax p d (simulateMove m mv0) true := foldl_min_mem_ge _ _ _ _ hmv0
              _ ≤ 7312 := (abs_le.mp (ih _ _)).2

lemma abLoopMaxP_spec (f : Square → Int → Int) (g : Square → Int) (β : Int) :
    ∀ (ms : List Square) (α acc : Int), α < β →
      (∀ mv ∈ ms, ∀ α', α' < β →
        (f mv α' ≤ α' → g mv ≤ f mv α') ∧ (β ≤ f mv α' → f mv α' ≤ g mv) ∧
          (α' < f mv α' → f mv α' < β → f mv α' = g mv)) →
      acc ≤ abLoopMaxP f β ms α acc ∧
      (abLoopMaxP f β ms α acc ≤ α →
        ms.foldl (fun a mv => max a (g mv)) acc ≤ abLoopMaxP f β ms α acc) ∧
      (β ≤ abLoopMaxP f β ms α acc →
        abLoopMaxP f β ms α acc ≤ ms.foldl (fun a mv => max a (g mv)) acc) ∧
      (α < abLoopMaxP f β ms α acc → abLoopMaxP f β ms α acc < β →
        abLoopMaxP f β ms α acc = ms.foldl (fun a mv => max a (g mv)) acc) := by
  intro ms
  induction ms with
  | nil =>
    intro α acc hαβ _
    simp only [abLoopMaxP, List.foldl_nil]
    exact ⟨le_refl _, fun _ => le_refl _, fun _ => le_refl _, fun _ _ => by trivial⟩
  | cons mv ms ih =>
    intro α acc hαβ H
    have hc := H mv (List.mem_cons_self _ _) α hαβ
    simp only [abLoopMaxP, List.foldl_cons]
    by_cases hbr : β ≤ max α (f mv α)
    · rw [if_pos hbr]
      have hβe : β ≤ f mv α := by omega
      have hew : f mv α ≤ g mv := hc.2.1 hβe
      have hfold := le_foldl_max g ms (max acc (g mv))
      exact ⟨le_max_left _ _, fun h => absurd h (by omega), fun _ => by omega,
        fun _ h2 => absurd h2 (by omega)⟩
    · rw [if_neg hbr]
      have hα'β : max α (f mv α) < β := by omega
      obtain ⟨ihacc, ihlow, ihhigh, ihexact⟩ :=
        ih (max α (f mv α)) (max acc (f mv α)) hα'β
          (fun q hq => H q (List.mem_cons_of_mem _ hq))
      have heβ : f mv α < β := by omega
      have hMe := foldl_max_init_max g ms acc (f mv α)
      have hMw := foldl_max_init_max g ms acc (g mv)
      by_cases hea : f mv α ≤ α
      · have hwe : g mv ≤ f mv α := hc.1 hea
        have hαeq : max α (f mv α) = α := by omega
        refine ⟨by omega, fun h => ?_, fun h => ?_, fun h1 h2 => ?_⟩
        · have h' := ihlow (by omega)
          rw [hMe] at h'
          rw [hMw]
          omega
        · have h' := ihhigh h
          rw [hMe] at h'
          rw [hMw]
          omega
        · have h' := ihexact (by omega) h2
          rw [hMe] at h'
          rw [hMw]
          omega
      · push_neg at hea
        have hee : f mv α = g mv := hc.2.2 hea heβ
        refine ⟨by omega, fun h => absurd h (by omega), fun h => ?_, fun h1 h2 => ?_⟩
        · have h' := ihhigh h
          rw [hMe] at h'
          rw [hMw]
          omega
        · rw [hMw]
          by_cases hcase : max α (f mv α) < abLoopMaxP f β ms (max α (f mv α)) (max acc (f mv α))
          · have h' := ihexact hcase h2
            rw [hMe] at h'
            omega
          · have h' := ihlow (by omega)
            rw [hMe] at h'
            omega

lemma abLoopMinP_spec (f : Square → Int → Int) (g : Square → Int) (α : Int) :
    ∀ (ms : List Square) (β acc : Int), α < β →
      (∀ mv ∈ ms, ∀ β', α < β' →
        (f mv β' ≤ α → g mv ≤ f mv β') ∧ (β' ≤ f mv β' → f mv β' ≤ g mv) ∧
          (α < f mv β' → f mv β' < β' → f mv β' = g mv)) →
      abLoopMinP f α ms β acc ≤ acc ∧
      (abLoopMinP f α ms β acc ≤ α →
        ms.foldl (fun a mv => min a (g mv)) acc ≤ abLoopMinP f α ms β acc) ∧
      (β ≤ abLoopMinP f α ms β acc →
        abLoopMinP f α ms β acc ≤ ms.foldl (fun a mv => min a (g mv)) acc) ∧
      (α < abLoopMinP f α ms β acc → abLoopMinP f α ms β acc < β →
        abLoopMinP f α ms β acc = ms.foldl (fun a mv => min a (g mv)) acc) := by
  intro ms
  induction ms with
  | nil =>
    intro β acc hαβ _
    simp only [abLoopMinP, List.foldl_nil]
    exact ⟨le_refl _, fun _ => le_refl _, fun _ => le_refl _, fun _ _ => by trivial⟩
  | cons mv ms ih =>
    intro β acc hαβ H
    have hc := H mv (List.mem_cons_self _ _) β hαβ
    simp only [abLoopMinP, List.foldl_cons]
    by_cases hbr : min β (f mv β) ≤ α
    · rw [if_pos hbr]
      have heα : f mv β ≤ α := by omega
      have hwe : g mv ≤ f mv β := hc.1 heα
      have hfold := foldl_min_le_init g ms (min acc (g mv))
      exact ⟨min_le_left _ _, fun _ => by omega, fun h => absurd h (by omega),
        fun h1 _ => absurd h1 (by omega)⟩
    · rw [if_neg hbr]
      have hαβ' : α < min β (f mv β) := by omega
      obtain ⟨ihacc, ihlow, ihhigh, ihexact⟩ :=
        ih (min β (f mv β)) (min acc (f mv β)) hαβ'
          (fun q hq => H q (List.mem_cons_of_mem _ hq))
      have hαe : α < f mv β := by omega
      have hMe := foldl_min_init_min g ms acc (f mv β)
      have hMw := foldl_min_init_min g ms acc (g mv)
      by_cases heb : β ≤ f mv β
      · have hew : f mv β ≤ g mv := hc.2.1 heb
        have hβeq : min β (f mv β) = β := by omega
        refine ⟨by omega, fun h => ?_, fun h => ?_, fun h1 h2 => ?_⟩
        · have h' := ihlow h
          rw [hMe] at h'
          rw [hMw]
          omega
        · have h' := ihhigh (by omega)
          rw [hMe] at h'
          rw [hMw]
          omega
        · have h' := ihexact h1 (by omega)
          rw [hMe] at h'
          rw [hMw]
          omega
      · push_neg at heb
        have hee : f mv β = g mv := hc.2.2 hαe heb
        refine ⟨by omega, fun h => ?_, fun h => absurd h (by omega), fun h1 h2 => ?_⟩
        · have h' := ihlow h
          rw [hMe] at h'
          rw [hMw]
          omega
        · rw [hMw]
          by_cases hcase : abLoopMinP f α ms (min β (f mv β)) (min acc (f mv β)) < min β (f mv β)
          · have h' := ihexact h1 hcase
            rw [hMe] at h'
            omega
          · have h' := ihhigh (by omega)
            rw [hMe] at h'
            omega

lemma alphabetaPure_spec (sf : List ScoredMove → List ScoredMove)
    (hsf : ∀ l : List ScoredMove, (sf l).Perm l) (p : Player) :
    ∀ (d : Nat) (m : GameModel) (α β : Int) (mx : Bool), α < β →
      (alphabetaPure sf p d m α β mx ≤ α →
        minimax p d m mx ≤ alphabetaPure sf p d m α β mx) ∧
      (β ≤ alphabetaPure sf p d m α β mx →
        alphabetaPure sf p d m α β mx ≤ minimax p d m mx) ∧
      (α < alphabetaPure sf p d m α β mx → alphabetaPure sf p d m α β mx < β →
        alphabetaPure sf p d m α β mx = minimax p d m mx) := by
  intro d
  induction d with
  | zero =>
    intro m α β mx _
    exact ⟨fun _ => le_of_eq rfl, fun _ => le_of_eq rfl, fun _ _ => rfl⟩
  | succ d ih =>
    intro m α β mx hαβ
    simp only [alphabetaPure, minimax]
    by_cases h2 : m.gameOver = true
    · rw [if_pos h2, if_pos h2]
      exact ⟨fun _ => le_refl _, fun _ => le_refl _, fun _ _ => rfl⟩
    · rw [if_neg h2, if_neg h2]
      by_cases h3 : getValidMoves m = []
      · rw [if_pos h3, if_pos h3]
        by_cases h4 : getValidMoves (flipTurn (copyBoard m)) = []
        · rw [if_pos h4, if_pos h4]
          exact ⟨fun _ => le_refl _, fun _ => le_refl _, fun _ _ => rfl⟩
        · rw [if_neg h4, if_neg h4]
          exact ih (flipTurn (copyBoard m)) α β (!mx) hαβ
      · rw [if_neg h3, if_neg h3]
        have hperm : (if (getValidMoves m).length > 1
            then orderMoves sf m (getValidMoves m) p mx
            else getValidMoves m).Perm (getValidMoves m) := by
          split_ifs
          · exact orderMoves_perm sf hsf m (getValidMoves m) p mx
          · exact List.Perm.refl _
        by_cases h5 : mx = true
        · rw [if_pos h5, if_pos h5]
          obtain ⟨_, hlow, hhigh, hexact⟩ :=
            abLoopMaxP_spec (fun mv α' => alphabetaPure sf p d (simulateMove m mv) α' β false)
              (fun mv => minimax p d (simulateMove m mv) false) β
              (if (getValidMoves m).length > 1
                then orderMoves sf m (getValidMoves m) p mx
                else getValidMoves m)
              α INT_MIN hαβ
              (fun mv _ α' hα'β => ih (simulateMove m mv) α' β false hα'β)
          have hf := foldl_max_perm (fun mv => minimax p d (simulateMove m mv) false)
            hperm INT_MIN
          refine ⟨fun h => ?_, fun h => ?_, fun h1 h2 => ?_⟩
          · have h' := hlow h
            rw [hf] at h'
            exact h'
          · have h' := hhigh h
            rw [hf] at h'
            exact h'
          · have h' := hexact h1 h2
            rw [hf] at h'
            exact h'
        · rw [if_neg h5, if_neg h5]
          obtain ⟨_, hlow, hhigh, hexact⟩ :=
            abLoopMinP_spec (fun mv β' => alphabetaPure sf p d (simulateMove m mv) α β' true)
              (fun mv => minimax p d (simulateMove m mv) true) α
              (if (getValidMoves m).length > 1
                then orderMoves sf m (getValidMoves m) p mx
                else getValidMoves m)
              β INT_MAX hαβ
              (fun mv _ β' hαβ' => ih (simulateMove m mv) α β' true hαβ')
          have hf := foldl_min_perm (fun mv => minimax p d (simulateMove m mv) true)
            hperm INT_MAX
          refine ⟨fun h => ?_, fun h => ?_, fun h1 h2 => ?_⟩
          · have h' := hlow h
            rw [hf] at h'
            exact h'
          · have h' := hhigh h
            rw [hf] at h'
            exact h'
          · have h' := hexact h1 h2
            rw [hf] at h'
            exact h'

lemma alphabetaPure_eq_minimax (sf : List ScoredMove → List ScoredMove)
    (hsf : ∀ l : List ScoredMove, (sf l).Perm l) (p : Player)
    (d : Nat) (m : GameModel) (mx : Bool) :
    alphabetaPure sf p d m INT_MIN INT_MAX mx = minimax p d m mx := by
  have e1 : INT_MIN = -2147483648 := rfl
  have e2 : INT_MAX = 2147483647 := rfl
  have hspec := alphabetaPure_spec sf hsf p d m INT_MIN INT_MAX mx (by omega)
  have hmm := minimax_abs_le p d m mx
  rw [abs_le] at hmm
  rcases lt_or_le INT_MIN (alphabetaPure sf p d m INT_MIN INT_MAX mx) with h1 | h1
  · rcases lt_or_le (alphabetaPure sf p d m INT_MIN INT_MAX mx) INT_MAX with h2 | h2
    · exact hspec.2.2 h1 h2
    · have h' := hspec.2.1 h2
      omega
  · have h' := hspec.1 h1
    omega

lemma abLoopMaxC_eq_pure (f : Square → Int → Nat → Int × Nat) (fP : Square → Int → Int)
    (β : Int) (B : Nat)
    (hfc : ∀ mv α' n', n' ≤ (f mv α' n').2)
    (hfe : ∀ mv α' n', (f mv α' n').2 < B → (f mv α' n').1 = fP mv α') :
    ∀ (ms : List Square) (α acc : Int) (n : Nat),
      (abLoopMaxC f β ms α acc n).2 < B →
      (abLoopMaxC f β ms α acc n).1 = abLoopMaxP fP β ms α acc := by
  intro ms
  induction ms with
  | nil => intro α acc n _; rfl
  | cons mv ms ih =>
    intro α acc n hB
    simp only [abLoopMaxC] at hB
    simp only [abLoopMaxC, abLoopMaxP]
    have hmono := abLoopMaxC_counter_le f β ms (max α (f mv α n).1) (max acc (f mv α n).1)
      (f mv α n).2 hfc
    by_cases hbr : β ≤ max α (f mv α n).1
    · rw [if_pos hbr] at hB ⊢
      have he := hfe mv α n hB
      rw [he] at hbr ⊢
      rw [if_pos hbr]
    · rw [if_neg hbr] at hB ⊢
      have h1 : (f mv α n).2 < B := lt_of_le_of_lt hmono hB
      have he := hfe mv α n h1
      rw [he] at hbr hB ⊢
      rw [if_neg hbr]
      exact ih _ _ _ hB

lemma abLoopMinC_eq_pure (f : Square → Int → Nat → Int × Nat) (fP : Square → Int → Int)
    (α : Int) (B : Nat)
    (hfc : ∀ mv β' n', n' ≤ (f mv β' n').2)
    (hfe : ∀ mv β' n', (f mv β' n').2 < B → (f mv β' n').1 = fP mv β') :
    ∀ (ms : List Square) (β acc : Int) (n : Nat),
      (abLoopMinC f α ms β acc n).2 < B →
      (abLoopMinC f α ms β acc n).1 = abLoopMinP fP α ms β acc := by
  intro ms
  induction ms with
  | nil => intro β acc n _; rfl
  | cons mv ms ih =>
    intro β acc n hB
    simp only [abLoopMinC] at hB
    simp only [abLoopMinC, abLoopMinP]
    have hmono := abLoopMinC_counter_le f α ms (min β (f mv β n).1) (min acc (f mv β n).1)
      (f mv β n).2 hfc
    by_cases hbr : min β (f mv β n).1 ≤ α
    · rw [if_pos hbr] at hB ⊢
      have he := hfe mv β n hB
      rw [he] at hbr ⊢
      rw [if_pos hbr]
    · rw [if_neg hbr] at hB ⊢
      have h1 : (f mv β n).2 < B := lt_of_le_of_lt hmono hB
      have he := hfe mv β n h1
      rw [he] at hbr hB ⊢
      rw [if_neg hbr]
      exact ih _ _ _ hB

lemma alphabeta_eq_pure (sf : List ScoredMove → List ScoredMove) (B : Nat) (p : Player) :
    ∀ (d : Nat) (m : GameModel) (α β : Int) (mx : Bool) (n : Nat),
      (alphabeta sf B p d m α β mx n).2 < B →
      (alphabeta sf B p d m α β mx n).1 = alphabetaPure sf p d m α β mx := by
  intro d
  induction d with
  | zero =>
    intro m α β mx n _
    simp only [alphabeta, alphabetaPure]
    split_ifs <;> rfl
  | succ d ih =>
    intro m α β mx n hB
    have hn1 : ¬ B ≤ n + 1 := by
      intro hc
      rw [alphabeta_budget_immediate sf B p _ m α β mx n hc] at hB
      dsimp only at hB
      omega
    simp only [alphabeta] at hB
    simp only [alphabeta, alphabetaPure]
    rw [if_neg hn1] at hB ⊢
    by_cases h2 : m.gameOver = true
    · rw [if_pos h2]
      rw [if_pos h2]
    · rw [if_neg h2] at hB
      rw [if_neg h2, if_neg h2]
      by_cases h3 : getValidMoves m = []
      · rw [if_pos h3] at hB
        rw [if_pos h3, if_pos h3]
        by_cases h4 : getValidMoves (flipTurn (copyBoard m)) = []
        · rw [if_pos h4]
          rw [if_pos h4]
        · rw [if_neg h4] at hB
          rw [if_neg h4, if_neg h4]
          exact ih _ _ _ _ _ hB
      · rw [if_neg h3] at hB
        rw [if_neg h3, if_neg h3]
        by_cases h5 : mx = true
        · rw [if_pos h5] at hB
          rw [if_pos h5, if_pos h5]
          exact abLoopMaxC_eq_pure _ _ β B
            (fun mv α' n' => le_trans (Nat.le_succ n')
              (alphabeta_counter_le sf B p d (simulateMove m mv) α' β false n'))
            (fun mv α' n' h => ih _ _ _ _ _ h) _ α INT_MIN (n + 1) hB
        · rw [if_neg h5] at hB
          rw [if_neg h5, if_neg h5]
          exact abLoopMinC_eq_pure _ _ α B
            (fun mv β' n' => le_trans (Nat.le_succ n')
              (alphabeta_counter_le sf B p d (simulateMove m mv) α β' true n'))
            (fun mv β' n' h => ih _ _ _ _ _ h) _ β INT_MAX (n + 1) hB

/-- C1: whenever the node budget is not reached during the search, the
full-window alpha-beta search (with its move ordering, for any conforming
`std::sort`) computes exactly the value of the exhaustive brute-force
minimax over the same game tree with the same evaluation function. -/
theorem alphabeta_fullwindow_eq_minimax (sf : List ScoredMove → List ScoredMove)
    (hsf : ∀ l : List ScoredMove, (sf l).Perm l) (B : Nat) (p : Player)
    (d : Nat) (m : GameModel) (mx : Bool)
    (hbudget : (alphabeta sf B p d m INT_MIN INT_MAX mx 0).2 < B) :
    (alphabeta sf B p d m INT_MIN INT_MAX mx 0).1 = minimax p d m mx := by
  rw [alphabeta_eq_pure sf B p d m INT_MIN INT_MAX mx 0 hbudget]
  exact alphabetaPure_eq_minimax sf hsf p d m mx

set_option maxHeartbeats 4000000

/-- C1 witness: a depth-1 full-window search from the initial position
(black to move) explores 5 nodes — far below the enhanced budget — and
returns exactly the minimax value. -/
theorem alphabeta_fullwindow_eq_minimax_witness :
    (alphabeta idSort MAX_NODES_ENHANCED Player.black 1 initialModel INT_MIN INT_MAX
        true 0).2 < MAX_NODES_ENHANCED ∧
    (alphabeta idSort MAX_NODES_ENHANCED Player.black 1 initialModel INT_MIN INT_MAX
        true 0).1 = minimax Player.black 1 initialModel true := by
  have hd : (alphabeta idSort MAX_NODES_ENHANCED Player.black 1 initialModel INT_MIN INT_MAX
      true 0).2 < MAX_NODES_ENHANCED := by decide
  exact ⟨hd, alphabeta_fullwindow_eq_minimax idSort (fun l => List.Perm.refl l)
    MAX_NODES_ENHANCED Player.black 1 initialModel true hd⟩

end EDAversi
